import Mathlib

/-!
Verification of the visual-debug trace synthesizer.

This file gives a shallow embedding of the repository's core: the
visualization event schema, the three canonical trace generators
(bubble, selection, insertion sort) and the two variants of the
source-code parser pipeline (an execute-based variant and a
visitor-based variant), together with theorems settling the frozen
claims about them.

JS numbers appearing as array values and event indices are modelled as
`Int` (all literals in scope are integers).  Out-of-range array reads
(which yield `undefined` in JS) are modelled as `0`, and out-of-range
writes as no-ops; no theorem below depends on either corner.
-/

set_option maxRecDepth 4000

namespace VisualDebug

/-- One visualization event (operation record), as emitted by both the
parser pipelines and the canonical generators. -/
inductive Op where
  | init (array : List Int)
  | compare (indices : List Int) (values : List Int)
  | swap (indices : List Int) (values : List Int)
  | set (indices : List Int) (value : Int)
  | highlight (indices : List Int) (color : Nat)
  | sorted (indices : List Int)
  | complete
  | comment (message : String)
deriving Repr, DecidableEq

/-- Read of the shadow array at a JS (possibly negative) index. -/
def getI (l : List Int) (i : Int) : Int :=
  if 0 ≤ i ∧ i < (l.length : Int) then l.getD i.toNat 0 else 0

/-- Write to the shadow array at a JS index (no-op when out of range). -/
def setI (l : List Int) (i : Int) (v : Int) : List Int :=
  if 0 ≤ i then l.set i.toNat v else l

/-- Simultaneous exchange of two JS-indexed positions,
mirroring the destructuring assignment in the source. -/
def swapI (l : List Int) (i j : Int) : List Int :=
  setI (setI l i (getI l j)) j (getI l i)

/-- Simultaneous exchange of two `Nat`-indexed positions of the shadow array. -/
def swapAt (l : List Int) (j k : Nat) : List Int :=
  (l.set j (l.getD k 0)).set k (l.getD j 0)

/-! ## Canonical generators (identical in both source variants) -/

/-- Inner loop of `generateBubbleSort`: `n` remaining iterations with
loop counter `j`; compares `(j, j+1)`, swapping when out of order. -/
def bubbleInner (l : List Int) (j : Nat) : Nat → List Int × List Op
  | 0 => (l, [])
  | n+1 =>
    let a := l.getD j 0
    let b := l.getD (j+1) 0
    let cmp := Op.compare [(j : Int), ((j+1 : Nat) : Int)] [a, b]
    if b < a then
      let rest := bubbleInner (swapAt l j (j+1)) (j+1) n
      (rest.1, cmp :: Op.swap [(j : Int), ((j+1 : Nat) : Int)] [a, b] :: rest.2)
    else
      let rest := bubbleInner l (j+1) n
      (rest.1, cmp :: rest.2)

/-- Outer loop of `generateBubbleSort`: `f` remaining iterations with
loop counter `i`; each pass runs the inner loop `length - i - 1` times
and then marks position `length - i - 1` as sorted. -/
def bubbleOuter (l : List Int) (i : Nat) : Nat → List Int × List Op
  | 0 => (l, [])
  | f+1 =>
    let inner := bubbleInner l 0 (l.length - i - 1)
    let srt := Op.sorted [(l.length : Int) - (i : Int) - 1]
    let rest := bubbleOuter inner.1 (i+1) f
    (rest.1, inner.2 ++ srt :: rest.2)

/-- The canonical bubble-sort trace generator (`generateBubbleSort`). -/
def generateBubbleSort (array : List Int) : List Op :=
  let r := bubbleOuter array 0 array.length
  Op.init array :: (r.2 ++ [Op.complete])

/-- Inner loop of `generateSelectionSort`: scans `f` more positions
starting at `j`, tracking the current minimum index. -/
def selInner (l : List Int) (minIdx j : Nat) : Nat → Nat × List Op
  | 0 => (minIdx, [])
  | f+1 =>
    let cmp := Op.compare [(minIdx : Int), (j : Int)] [l.getD minIdx 0, l.getD j 0]
    let m2 := if l.getD j 0 < l.getD minIdx 0 then j else minIdx
    let rest := selInner l m2 (j+1) f
    (rest.1, cmp :: rest.2)

/-- Outer loop of `generateSelectionSort`: `f` remaining iterations
with counter `i`; highlights `i`, scans for the minimum, swaps it into
place when it moved, and marks `i` sorted. -/
def selOuter (l : List Int) (i : Nat) : Nat → List Int × List Op
  | 0 => (l, [])
  | f+1 =>
    let hl := Op.highlight [(i : Int)] 0xffaa00
    let inner := selInner l i (i+1) (l.length - (i+1))
    let m := inner.1
    let afterSwap : List Int × List Op :=
      if m ≠ i then
        (swapAt l i m, [Op.swap [(i : Int), (m : Int)] [l.getD i 0, l.getD m 0]])
      else (l, [])
    let srt := Op.sorted [(i : Int)]
    let rest := selOuter afterSwap.1 (i+1) f
    (rest.1, hl :: (inner.2 ++ (afterSwap.2 ++ (srt :: rest.2))))

/-- The canonical selection-sort trace generator
(`generateSelectionSort`).  Note the trailing
`sorted [length - 1]` event, whose index is `-1` on empty input. -/
def generateSelectionSort (array : List Int) : List Op :=
  let r := selOuter array 0 (array.length - 1)
  Op.init array :: (r.2 ++ [Op.sorted [(array.length : Int) - 1], Op.complete])

/-- Shift loop of `generateInsertionSort`.  The JS counter `j` is
modelled as the fuel `j + 1`, so fuel `0` is `j = -1`; returns the
final array, the emitted events and the final `j + 1`. -/
def insInner (l : List Int) (key : Int) : Nat → List Int × List Op × Nat
  | 0 => (l, [], 0)
  | j1+1 =>
    if key < l.getD j1 0 then
      let cmp := Op.compare [(j1 : Int), ((j1+1 : Nat) : Int)] [l.getD j1 0, key]
      let swp := Op.swap [(j1 : Int), ((j1+1 : Nat) : Int)] [l.getD j1 0, l.getD (j1+1) 0]
      let rest := insInner (l.set (j1+1) (l.getD j1 0)) key j1
      (rest.1, cmp :: swp :: rest.2.1, rest.2.2)
    else (l, [], j1+1)

/-- Outer loop of `generateInsertionSort`: `f` remaining iterations
with counter `i`; highlights `i`, shifts larger elements right, writes
the key back and marks its resting position sorted. -/
def insOuter (l : List Int) (i : Nat) : Nat → List Int × List Op
  | 0 => (l, [])
  | f+1 =>
    let key := l.getD i 0
    let hl := Op.highlight [(i : Int)] 0xffaa00
    let r := insInner l key i
    let l2 := r.1.set r.2.2 key
    let srt := Op.sorted [(r.2.2 : Int)]
    let rest := insOuter l2 (i+1) f
    (rest.1, hl :: (r.2.1 ++ (srt :: rest.2)))

/-- The canonical insertion-sort trace generator
(`generateInsertionSort`). -/
def generateInsertionSort (array : List Int) : List Op :=
  let r := insOuter array 1 (array.length - 1)
  Op.init array :: (r.2 ++ [Op.complete])

/-! ## Replay semantics

Mirrors the renderer's `executeOperation`: `init` resets the array,
`swap` exchanges two in-range positions, everything else leaves the
array unchanged (`set` is included for completeness of the schema). -/

/-- Replay a single event against the replayer's array. -/
def replayOp (l : List Int) : Op → List Int
  | Op.init a => a
  | Op.swap idx _ =>
    match idx with
    | [i, j] =>
      if 0 ≤ i ∧ i < (l.length : Int) ∧ 0 ≤ j ∧ j < (l.length : Int) then
        swapAt l i.toNat j.toNat
      else l
    | _ => l
  | Op.set idx v =>
    match idx with
    | [i] => if 0 ≤ i ∧ i < (l.length : Int) then l.set i.toNat v else l
    | _ => l
  | _ => l

/-- Replay a whole trace in order. -/
def replay (l : List Int) (t : List Op) : List Int := t.foldl replayOp l

/-- Values of the replayer's array at a list of event indices. -/
def valuesAt (l : List Int) (idx : List Int) : List Int :=
  idx.map fun i => l.getD i.toNat 0

/-- Recorded values of a `compare` or `swap` event agree with the
replayer's array; other events carry no checked values. -/
def eventValuesOk (l : List Int) : Op → Bool
  | Op.compare idx vals => vals == valuesAt l idx
  | Op.swap idx vals => vals == valuesAt l idx
  | _ => true

/-- Check that every `compare` and `swap` event's recorded values agree
with the replayer's array at the moment the event is replayed. -/
def checkEvents : List Int → List Op → Bool
  | _, [] => true
  | l, op :: rest => eventValuesOk l op && checkEvents (replayOp l op) rest

/-- Recognizer for `compare` events. -/
def isCompareOp : Op → Bool
  | Op.compare _ _ => true
  | _ => false

/-- Recognizer for `swap` events. -/
def isSwapOp : Op → Bool
  | Op.swap _ _ => true
  | _ => false

/-- Number of events of a trace satisfying a predicate. -/
def countOps (p : Op → Bool) (t : List Op) : Nat := (t.filter p).length

/-- Indices carried by an event, for the in-range invariant; `init`,
`complete` and `comment` carry none. -/
def opIndices : Op → List Int
  | Op.compare idx _ => idx
  | Op.swap idx _ => idx
  | Op.set idx _ => idx
  | Op.highlight idx _ => idx
  | Op.sorted idx => idx
  | _ => []

/-- Every index of every event of the trace lies within `[0, n)`. -/
def IndicesOk (n : Nat) (t : List Op) : Prop :=
  ∀ op ∈ t, ∀ i ∈ opIndices op, 0 ≤ i ∧ i < (n : Int)

instance (n : Nat) (t : List Op) : Decidable (IndicesOk n t) := by
  unfold IndicesOk; infer_instance

/-! ## A list-level specification of the bubble pass

`bpass k l` performs `k` adjacent compare-and-swap steps from the head
of `l`; `bsortN` iterates passes with shrinking bound, exactly the
shape of the generator's nested loops. -/

/-- One bubble pass of `k` adjacent comparisons. -/
def bpass : Nat → List Int → List Int
  | 0, l => l
  | _+1, [] => []
  | _+1, [a] => [a]
  | k+1, a :: b :: rest =>
    if b < a then b :: bpass k (a :: rest) else a :: bpass k (b :: rest)

/-- Iterated bubble passes with bounds `k-1, k-2, …, 0`. -/
def bsortN : List Int → Nat → List Int
  | l, 0 => l
  | l, k+1 => bsortN (bpass k l) k

theorem bpass_length (k : Nat) (l : List Int) : (bpass k l).length = l.length := by
  induction k generalizing l with
  | zero => rfl
  | succ k ih =>
    match l with
    | [] => rfl
    | [a] => rfl
    | a :: b :: rest =>
      simp only [bpass]
      split <;> simp [ih]

theorem bpass_perm (k : Nat) (l : List Int) : (bpass k l).Perm l := by
  induction k generalizing l with
  | zero => exact List.Perm.refl l
  | succ k ih =>
    match l with
    | [] => exact List.Perm.refl []
    | [a] => exact List.Perm.refl [a]
    | a :: b :: rest =>
      simp only [bpass]
      split
      · exact ((ih (a :: rest)).cons b).trans (List.Perm.swap a b rest)
      · exact (ih (b :: rest)).cons a

theorem bpass_drop (k : Nat) (l : List Int) :
    (bpass k l).drop (k+1) = l.drop (k+1) := by
  induction k generalizing l with
  | zero =>
    match l with
    | [] => rfl
    | a :: t => simp [bpass]
  | succ k ih =>
    match l with
    | [] => rfl
    | [a] => simp [bpass]
    | a :: b :: rest =>
      simp only [bpass]
      split
      · simpa using ih (a :: rest)
      · simpa using ih (b :: rest)

theorem bpass_take_perm (k : Nat) (l : List Int) :
    ((bpass k l).take (k+1)).Perm (l.take (k+1)) := by
  induction k generalizing l with
  | zero => exact List.Perm.refl _
  | succ k ih =>
    match l with
    | [] => exact List.Perm.refl _
    | [a] => simp [bpass]
    | a :: b :: rest =>
      simp only [bpass]
      split
      · have h1 := ih (a :: rest)
        simp only [List.take_succ_cons] at h1 ⊢
        exact (h1.cons b).trans (List.Perm.swap a b (rest.take k))
      · have h1 := ih (b :: rest)
        simp only [List.take_succ_cons] at h1 ⊢
        exact h1.cons a

theorem bpass_ub (k : Nat) (l : List Int) (hk : k < l.length) :
    ∀ x ∈ (bpass k l).take (k+1), x ≤ (bpass k l).getD k 0 := by
  induction k generalizing l with
  | zero =>
    match l with
    | a :: t =>
      intro x hx
      simp [bpass] at hx ⊢
      omega
  | succ k ih =>
    match l with
    | [] => simp at hk
    | [a] => simp at hk
    | a :: b :: rest =>
      have hk2 : k < (a :: rest).length ∧ k < (b :: rest).length := by
        simp at hk ⊢; omega
      intro x hx
      simp only [bpass] at hx ⊢
      by_cases hab : b < a
      · simp only [if_pos hab, List.take_succ_cons, List.mem_cons,
          List.getD_cons_succ] at hx ⊢
        have ha : a ∈ (bpass k (a :: rest)).take (k+1) := by
          have hp := (bpass_take_perm k (a :: rest)).mem_iff (a := a)
          simp only [List.take_succ_cons, List.mem_cons] at hp
          exact hp.mpr (Or.inl trivial)
        rcases hx with rfl | hx
        · exact le_trans (le_of_lt hab) (ih (a :: rest) hk2.1 a ha)
        · exact ih (a :: rest) hk2.1 x hx
      · simp only [if_neg hab, List.take_succ_cons, List.mem_cons,
          List.getD_cons_succ] at hx ⊢
        have hb : b ∈ (bpass k (b :: rest)).take (k+1) := by
          have hp := (bpass_take_perm k (b :: rest)).mem_iff (a := b)
          simp only [List.take_succ_cons, List.mem_cons] at hp
          exact hp.mpr (Or.inl trivial)
        rcases hx with rfl | hx
        · exact le_trans (not_lt.mp hab) (ih (b :: rest) hk2.2 b hb)
        · exact ih (b :: rest) hk2.2 x hx

/-- Invariant of the outer bubble loop: the suffix from position `k`
is sorted and dominates the prefix before it. -/
def SuffixOK (l : List Int) (k : Nat) : Prop :=
  (l.drop k).Sorted (· ≤ ·) ∧ ∀ x ∈ l.take k, ∀ y ∈ l.drop k, x ≤ y

theorem suffixOK_length (l : List Int) : SuffixOK l l.length := by
  refine ⟨by simp, ?_⟩
  intro x _ y hy
  simp at hy

theorem mem_take_succ_of_mem_take {l : List Int} {k : Nat} {x : Int}
    (h : x ∈ l.take k) : x ∈ l.take (k+1) := by
  rw [List.take_succ]
  exact List.mem_append_left _ h

theorem suffixOK_step (l : List Int) (k : Nat) (hk : k < l.length)
    (h : SuffixOK l (k+1)) : SuffixOK (bpass k l) k := by
  obtain ⟨hs, hd⟩ := h
  have hlen := bpass_length k l
  have hdrop := bpass_drop k l
  have hkl : k < (bpass k l).length := by omega
  have hcons : (bpass k l).drop k = (bpass k l).getD k 0 :: (bpass k l).drop (k+1) := by
    rw [List.drop_eq_getElem_cons hkl, List.getD_eq_getElem _ 0 hkl]
  have hmemD : (bpass k l).getD k 0 ∈ (bpass k l).take (k+1) := by
    rw [List.take_succ, List.getElem?_eq_getElem hkl, List.getD_eq_getElem _ 0 hkl]
    exact List.mem_append_right _ (by simp)
  have hmemDl : (bpass k l).getD k 0 ∈ l.take (k+1) :=
    (bpass_take_perm k l).subset hmemD
  constructor
  · rw [hcons, List.sorted_cons]
    refine ⟨?_, hdrop ▸ hs⟩
    intro y hy
    rw [hdrop] at hy
    exact hd _ hmemDl y hy
  · intro x hx y hy
    have hx1 : x ∈ (bpass k l).take (k+1) := mem_take_succ_of_mem_take hx
    have hxl : x ∈ l.take (k+1) := (bpass_take_perm k l).subset hx1
    rw [hcons] at hy
    rcases List.mem_cons.mp hy with rfl | hy
    · exact bpass_ub k l hk x hx1
    · rw [hdrop] at hy
      exact hd x hxl y hy

theorem bsortN_sorted_aux :
    ∀ (k : Nat) (l : List Int), k ≤ l.length → SuffixOK l k →
      (bsortN l k).Sorted (· ≤ ·) := by
  intro k
  induction k with
  | zero =>
    intro l _ h
    simpa [bsortN] using h.1
  | succ k ih =>
    intro l hk h
    have hlt : k < l.length := hk
    have hstep := suffixOK_step l k hlt h
    have hlen := bpass_length k l
    exact ih (bpass k l) (by omega) hstep

theorem bsortN_sorted (l : List Int) : (bsortN l l.length).Sorted (· ≤ ·) :=
  bsortN_sorted_aux l.length l le_rfl (suffixOK_length l)

theorem bsortN_perm : ∀ (k : Nat) (l : List Int), (bsortN l k).Perm l := by
  intro k
  induction k with
  | zero => intro l; exact List.Perm.refl l
  | succ k ih =>
    intro l
    exact (ih (bpass k l)).trans (bpass_perm k l)

/-! ## The bubble generator's shadow array computes `bsortN` -/

theorem swapAt_length (l : List Int) (j k : Nat) : (swapAt l j k).length = l.length := by
  simp [swapAt]

theorem swapAt_cons (c : Int) (t : List Int) (j k : Nat) :
    swapAt (c :: t) (j+1) (k+1) = c :: swapAt t j k := by
  simp [swapAt, List.getD_cons_succ]

theorem bubbleInner_fst_length (n : Nat) : ∀ (l : List Int) (j : Nat),
    ((bubbleInner l j n).1).length = l.length := by
  induction n with
  | zero => intro l j; rfl
  | succ n ih =>
    intro l j
    simp only [bubbleInner]
    split
    · rw [ih, swapAt_length]
    · rw [ih]

theorem bubbleInner_cons_fst (n : Nat) : ∀ (t : List Int) (c : Int) (j : Nat),
    (bubbleInner (c :: t) (j+1) n).1 = c :: (bubbleInner t j n).1 := by
  induction n with
  | zero => intro t c j; rfl
  | succ n ih =>
    intro t c j
    simp only [bubbleInner, List.getD_cons_succ]
    split
    · rw [swapAt_cons, ih]
    · rw [ih]

theorem bubbleInner_eq_bpass : ∀ (n : Nat) (l : List Int), n < l.length →
    (bubbleInner l 0 n).1 = bpass n l := by
  intro n
  induction n with
  | zero => intro l _; rfl
  | succ n ih =>
    intro l h
    cases l with
    | nil => simp at h
    | cons a t =>
      cases t with
      | nil => simp at h
      | cons b rest =>
        have hab : (a :: b :: rest).getD 0 0 = a := rfl
        have hb : (a :: b :: rest).getD 1 0 = b := rfl
        have hsw : swapAt (a :: b :: rest) 0 1 = b :: a :: rest := by
          simp [swapAt]
        simp only [bubbleInner, bpass, hab, hb]
        have hlt : n < (a :: rest).length ∧ n < (b :: rest).length := by
          simp at h ⊢; omega
        split
        · rw [hsw, bubbleInner_cons_fst, ih (a :: rest) hlt.1]
        · rw [show (0+1 : Nat) = 1 from rfl] at *
          rw [show (bubbleInner (a :: b :: rest) 1 n) = bubbleInner (a :: (b :: rest)) (0+1) n from rfl,
            bubbleInner_cons_fst, ih (b :: rest) hlt.2]

theorem bubbleOuter_fst_eq_bsortN : ∀ (f : Nat) (l : List Int) (i : Nat),
    l.length = i + f → (bubbleOuter l i f).1 = bsortN l f := by
  intro f
  induction f with
  | zero => intro l i _; rfl
  | succ f ih =>
    intro l i h
    simp only [bubbleOuter, bsortN]
    have hm : l.length - i - 1 = f := by omega
    rw [hm, bubbleInner_eq_bpass f l (by omega),
      ih (bpass f l) (i+1) (by rw [bpass_length]; omega)]

/-! ## Replaying the bubble trace reproduces the shadow array -/

theorem replay_append (l : List Int) (t1 t2 : List Op) :
    replay l (t1 ++ t2) = replay (replay l t1) t2 :=
  List.foldl_append ..

theorem replayOp_swap_nat (l : List Int) (j k : Nat) (vals : List Int)
    (hj : j < l.length) (hk : k < l.length) :
    replayOp l (Op.swap [(j : Int), (k : Int)] vals) = swapAt l j k := by
  have h1 : (0 : Int) ≤ (j : Int) := Int.natCast_nonneg j
  have h2 : (j : Int) < (l.length : Int) := by exact_mod_cast hj
  have h3 : (0 : Int) ≤ (k : Int) := Int.natCast_nonneg k
  have h4 : (k : Int) < (l.length : Int) := by exact_mod_cast hk
  simp [replayOp, h1, h2, h3, h4]

theorem bubbleInner_replay : ∀ (n : Nat) (l : List Int) (j : Nat), j + n < l.length →
    replay l (bubbleInner l j n).2 = (bubbleInner l j n).1 := by
  intro n
  induction n with
  | zero => intro l j _; rfl
  | succ n ih =>
    intro l j h
    simp only [bubbleInner]
    split
    · show replay l (Op.compare _ _ :: Op.swap _ _ :: _) = _
      simp only [replay, List.foldl_cons]
      have hc : replayOp l (Op.compare [(j : Int), ((j+1 : Nat) : Int)]
          [l.getD j 0, l.getD (j+1) 0]) = l := rfl
      rw [hc, replayOp_swap_nat l j (j+1) _ (by omega) (by omega)]
      exact ih (swapAt l j (j+1)) (j+1) (by rw [swapAt_length]; omega)
    · show replay l (Op.compare _ _ :: _) = _
      simp only [replay, List.foldl_cons]
      have hc : replayOp l (Op.compare [(j : Int), ((j+1 : Nat) : Int)]
          [l.getD j 0, l.getD (j+1) 0]) = l := rfl
      rw [hc]
      exact ih l (j+1) (by omega)

theorem replayOp_sorted (l : List Int) (idx : List Int) :
    replayOp l (Op.sorted idx) = l := rfl

theorem bubbleOuter_replay : ∀ (f : Nat) (l : List Int) (i : Nat), l.length = i + f →
    replay l (bubbleOuter l i f).2 = (bubbleOuter l i f).1 := by
  intro f
  induction f with
  | zero => intro l i _; rfl
  | succ f ih =>
    intro l i h
    simp only [bubbleOuter]
    rw [replay_append]
    have hlen1 := bubbleInner_fst_length (l.length - i - 1) l 0
    have h1 := bubbleInner_replay (l.length - i - 1) l 0 (by omega)
    rw [h1]
    show replay _ (Op.sorted _ :: _) = _
    simp only [replay, List.foldl_cons, replayOp_sorted]
    exact ih _ (i+1) (by omega)

theorem generateBubbleSort_replay (A : List Int) :
    replay A (generateBubbleSort A) = bsortN A A.length := by
  have h1 : generateBubbleSort A
      = Op.init A :: ((bubbleOuter A 0 A.length).2 ++ [Op.complete]) := rfl
  have h2 : replay A (Op.init A :: ((bubbleOuter A 0 A.length).2 ++ [Op.complete]))
      = replay A ((bubbleOuter A 0 A.length).2 ++ [Op.complete]) := rfl
  rw [h1, h2, replay_append, bubbleOuter_replay A.length A 0 (by omega),
    bubbleOuter_fst_eq_bsortN A.length A 0 (by omega)]
  rfl

/-- Claim C1.  For every non-empty array `A`, the bubble generator's
trace starts with `init A`, and replaying its swap events against `A`
yields a sorted permutation of `A`. -/
theorem claim1_generateBubbleSort_sorts (A : List Int) (_hA : A ≠ []) :
    (generateBubbleSort A).head? = some (Op.init A) ∧
    (replay A (generateBubbleSort A)).Perm A ∧
    (replay A (generateBubbleSort A)).Sorted (· ≤ ·) := by
  refine ⟨rfl, ?_, ?_⟩
  · rw [generateBubbleSort_replay]
    exact bsortN_perm A.length A
  · rw [generateBubbleSort_replay]
    exact bsortN_sorted A

/-- Witness for C1 at the concrete input `[3, 1, 2]`. -/
theorem claim1_generateBubbleSort_sorts_witness :
    (generateBubbleSort [3, 1, 2]).head? = some (Op.init [3, 1, 2]) ∧
    (replay [3, 1, 2] (generateBubbleSort [3, 1, 2])).Perm [3, 1, 2] ∧
    (replay [3, 1, 2] (generateBubbleSort [3, 1, 2])).Sorted (· ≤ ·) :=
  claim1_generateBubbleSort_sorts [3, 1, 2] (by decide)

/-! ## Index bounds of the generators' events -/

theorem bubbleInner_indices (n : Nat) : ∀ (l : List Int) (j : Nat),
    ∀ op ∈ (bubbleInner l j n).2, ∀ x ∈ opIndices op, 0 ≤ x ∧ x ≤ ((j + n : Nat) : Int) := by
  induction n with
  | zero => intro l j op h; simp [bubbleInner] at h
  | succ n ih =>
    intro l j op hop x hx
    simp only [bubbleInner] at hop
    split at hop
    · rcases List.mem_cons.mp hop with rfl | hop
      · simp only [opIndices, List.mem_cons, List.mem_singleton] at hx
        rcases hx with rfl | rfl | h
        · constructor <;> omega
        · constructor <;> omega
        · simp at h
      rcases List.mem_cons.mp hop with rfl | hop
      · simp only [opIndices, List.mem_cons, List.mem_singleton] at hx
        rcases hx with rfl | rfl | h
        · constructor <;> omega
        · constructor <;> omega
        · simp at h
      · have := ih (swapAt l j (j+1)) (j+1) op hop x hx
        constructor
        · exact this.1
        · refine le_trans this.2 ?_; omega
    · rcases List.mem_cons.mp hop with rfl | hop
      · simp only [opIndices, List.mem_cons, List.mem_singleton] at hx
        rcases hx with rfl | rfl | h
        · constructor <;> omega
        · constructor <;> omega
        · simp at h
      · have := ih l (j+1) op hop x hx
        constructor
        · exact this.1
        · refine le_trans this.2 ?_; omega

theorem bubbleOuter_indices : ∀ (f : Nat) (l : List Int) (i : Nat), l.length = i + f →
    ∀ op ∈ (bubbleOuter l i f).2, ∀ x ∈ opIndices op, 0 ≤ x ∧ x < (l.length : Int) := by
  intro f
  induction f with
  | zero => intro l i _ op h; simp [bubbleOuter] at h
  | succ f ih =>
    intro l i h op hop x hx
    simp only [bubbleOuter] at hop
    rcases List.mem_append.mp hop with hop | hop
    · have := bubbleInner_indices (l.length - i - 1) l 0 op hop x hx
      constructor
      · exact this.1
      · refine lt_of_le_of_lt this.2 ?_; omega
    · rcases List.mem_cons.mp hop with rfl | hop
      · simp only [opIndices, List.mem_singleton] at hx
        subst hx
        constructor <;> omega
      · have hlen := bubbleInner_fst_length (l.length - i - 1) l 0
        have := ih (bubbleInner l 0 (l.length - i - 1)).1 (i+1) (by omega) op hop x hx
        rw [hlen] at this
        exact this

theorem selInner_min_lt (f : Nat) : ∀ (l : List Int) (m j : Nat),
    m < l.length → j + f ≤ l.length → (selInner l m j f).1 < l.length := by
  induction f with
  | zero => intro l m j hm _; exact hm
  | succ f ih =>
    intro l m j hm hj
    simp only [selInner]
    split
    · exact ih l j (j+1) (by omega) (by omega)
    · exact ih l m (j+1) hm (by omega)

theorem selInner_indices (f : Nat) : ∀ (l : List Int) (m j : Nat),
    m < l.length → j + f ≤ l.length →
    ∀ op ∈ (selInner l m j f).2, ∀ x ∈ opIndices op, 0 ≤ x ∧ x < (l.length : Int) := by
  induction f with
  | zero => intro l m j _ _ op h; simp [selInner] at h
  | succ f ih =>
    intro l m j hm hj op hop x hx
    simp only [selInner] at hop
    rcases List.mem_cons.mp hop with rfl | hop
    · simp only [opIndices, List.mem_cons, List.mem_singleton] at hx
      rcases hx with rfl | rfl | h
      · constructor <;> omega
      · constructor <;> omega
      · simp at h
    · split at hop
      · exact ih l j (j+1) (by omega) (by omega) op hop x hx
      · exact ih l m (j+1) hm (by omega) op hop x hx

theorem selOuter_indices : ∀ (f : Nat) (l : List Int) (i : Nat), i + f + 1 = l.length →
    ∀ op ∈ (selOuter l i f).2, ∀ x ∈ opIndices op, 0 ≤ x ∧ x < (l.length : Int) := by
  intro f
  induction f with
  | zero => intro l i _ op h; simp [selOuter] at h
  | succ f ih =>
    intro l i h op hop x hx
    simp only [selOuter] at hop
    rcases List.mem_cons.mp hop with rfl | hop
    · simp only [opIndices, List.mem_singleton] at hx
      subst hx
      constructor <;> omega
    rcases List.mem_append.mp hop with hop | hop
    · exact selInner_indices (l.length - (i+1)) l i (i+1) (by omega) (by omega) op hop x hx
    rcases List.mem_append.mp hop with hop | hop
    · have hmlt : (selInner l i (i+1) (l.length - (i+1))).1 < l.length :=
        selInner_min_lt (l.length - (i+1)) l i (i+1) (by omega) (by omega)
      split at hop
      · rcases List.mem_singleton.mp hop with rfl
        simp only [opIndices, List.mem_cons, List.mem_singleton] at hx
        rcases hx with rfl | rfl | hfalse
        · constructor <;> omega
        · constructor <;> omega
        · simp at hfalse
      · simp at hop
    · rcases List.mem_cons.mp hop with rfl | hop
      · simp only [opIndices, List.mem_singleton] at hx
        subst hx
        constructor <;> omega
      · set after := (if (selInner l i (i+1) (l.length - (i+1))).1 ≠ i then
            (swapAt l i (selInner l i (i+1) (l.length - (i+1))).1,
              [Op.swap [(i : Int), ((selInner l i (i+1) (l.length - (i+1))).1 : Int)]
                [l.getD i 0, l.getD (selInner l i (i+1) (l.length - (i+1))).1 0]])
          else (l, [])) with hafter
        have hlen : after.1.length = l.length := by
          rw [hafter]
          split <;> simp [swapAt_length]
        have := ih after.1 (i+1) (by omega) op hop x hx
        rw [hlen] at this
        exact this

theorem insInner_j_le (fuel : Nat) : ∀ (l : List Int) (key : Int),
    (insInner l key fuel).2.2 ≤ fuel := by
  induction fuel with
  | zero => intro l key; exact le_rfl
  | succ j1 ih =>
    intro l key
    simp only [insInner]
    split
    · exact le_trans (ih _ key) (by omega)
    · exact le_rfl

theorem insInner_length (fuel : Nat) : ∀ (l : List Int) (key : Int),
    ((insInner l key fuel).1).length = l.length := by
  induction fuel with
  | zero => intro l key; rfl
  | succ j1 ih =>
    intro l key
    simp only [insInner]
    split
    · rw [ih]; simp
    · rfl

theorem insInner_indices (fuel : Nat) : ∀ (l : List Int) (key : Int),
    ∀ op ∈ (insInner l key fuel).2.1, ∀ x ∈ opIndices op, 0 ≤ x ∧ x ≤ (fuel : Int) := by
  induction fuel with
  | zero => intro l key op h; simp [insInner] at h
  | succ j1 ih =>
    intro l key op hop x hx
    simp only [insInner] at hop
    split at hop
    · rcases List.mem_cons.mp hop with rfl | hop
      · simp only [opIndices, List.mem_cons, List.mem_singleton] at hx
        rcases hx with rfl | rfl | h
        · constructor <;> omega
        · constructor <;> omega
        · simp at h
      rcases List.mem_cons.mp hop with rfl | hop
      · simp only [opIndices, List.mem_cons, List.mem_singleton] at hx
        rcases hx with rfl | rfl | h
        · constructor <;> omega
        · constructor <;> omega
        · simp at h
      · have := ih _ key op hop x hx
        constructor
        · exact this.1
        · refine le_trans this.2 ?_; omega
    · simp at hop

theorem insOuter_indices : ∀ (f : Nat) (l : List Int) (i : Nat), i + f = l.length → 1 ≤ i →
    ∀ op ∈ (insOuter l i f).2, ∀ x ∈ opIndices op, 0 ≤ x ∧ x < (l.length : Int) := by
  intro f
  induction f with
  | zero => intro l i _ _ op h; simp [insOuter] at h
  | succ f ih =>
    intro l i h hi op hop x hx
    simp only [insOuter] at hop
    rcases List.mem_cons.mp hop with rfl | hop
    · simp only [opIndices, List.mem_singleton] at hx
      subst hx
      constructor <;> omega
    rcases List.mem_append.mp hop with hop | hop
    · have := insInner_indices i l (l.getD i 0) op hop x hx
      constructor
      · exact this.1
      · refine lt_of_le_of_lt this.2 ?_; omega
    · rcases List.mem_cons.mp hop with rfl | hop
      · simp only [opIndices, List.mem_singleton] at hx
        subst hx
        have hj := insInner_j_le i l (l.getD i 0)
        constructor <;> omega
      · have hlen : (((insInner l (l.getD i 0) i).1).set
            (insInner l (l.getD i 0) i).2.2 (l.getD i 0)).length = l.length := by
          rw [List.length_set, insInner_length]
        have := ih _ (i+1) (by omega) (by omega) op hop x hx
        rw [hlen] at this
        exact this

/-- Claim C3 (amended).  On every non-empty input every index carried
by any event of any of the three canonical generators' traces lies
within `[0, length)`; the claim fails as stated because of the
selection generator's trailing `sorted [-1]` on empty input (see the
counterexample), and because the parse pipelines copy literal indices
from the source unchecked. -/
theorem claim3_generator_indices_in_range (A : List Int) (hA : A ≠ []) :
    IndicesOk A.length (generateBubbleSort A) ∧
    IndicesOk A.length (generateSelectionSort A) ∧
    IndicesOk A.length (generateInsertionSort A) := by
  have hlen : 1 ≤ A.length := by
    cases A with
    | nil => exact absurd rfl hA
    | cons a t => simp
  refine ⟨?_, ?_, ?_⟩
  · intro op hop x hx
    rcases List.mem_cons.mp hop with rfl | hop
    · simp [opIndices] at hx
    rcases List.mem_append.mp hop with hop | hop
    · exact bubbleOuter_indices A.length A 0 (by omega) op hop x hx
    · rcases List.mem_singleton.mp hop with rfl
      simp [opIndices] at hx
  · intro op hop x hx
    rcases List.mem_cons.mp hop with rfl | hop
    · simp [opIndices] at hx
    rcases List.mem_append.mp hop with hop | hop
    · exact selOuter_indices (A.length - 1) A 0 (by omega) op hop x hx
    · rcases List.mem_cons.mp hop with rfl | hop
      · simp only [opIndices, List.mem_singleton] at hx
        subst hx
        constructor <;> omega
      · rcases List.mem_singleton.mp hop with rfl
        simp [opIndices] at hx
  · intro op hop x hx
    rcases List.mem_cons.mp hop with rfl | hop
    · simp [opIndices] at hx
    rcases List.mem_append.mp hop with hop | hop
    · exact insOuter_indices (A.length - 1) A 1 (by omega) (by omega) op hop x hx
    · rcases List.mem_singleton.mp hop with rfl
      simp [opIndices] at hx

/-- Witness for the amended C3 at the concrete input `[2, 1]`. -/
theorem claim3_generator_indices_in_range_witness :
    IndicesOk ([2, 1] : List Int).length (generateBubbleSort [2, 1]) ∧
    IndicesOk ([2, 1] : List Int).length (generateSelectionSort [2, 1]) ∧
    IndicesOk ([2, 1] : List Int).length (generateInsertionSort [2, 1]) :=
  claim3_generator_indices_in_range [2, 1] (by decide)

/-- Claim C3 counterexample: the selection generator, run on the empty
array, emits a `sorted` event carrying index `-1`, which is not within
`[0, init.array.length)` and is emitted rather than rejected. -/
theorem claim3_counterexample :
    Op.sorted [-1] ∈ generateSelectionSort ([] : List Int) ∧
    ¬ IndicesOk ([] : List Int).length (generateSelectionSort ([] : List Int)) := by
  constructor
  · decide
  · intro h
    have := h (Op.sorted [-1]) (by decide) (-1) (by decide)
    omega

/-! ## Recorded values under replay -/

theorem checkEvents_cons_compare (l : List Int) (idx vals : List Int) (rest : List Op) :
    checkEvents l (Op.compare idx vals :: rest)
      = ((vals == valuesAt l idx) && checkEvents l rest) := rfl

theorem checkEvents_cons_swap (l : List Int) (idx vals : List Int) (rest : List Op) :
    checkEvents l (Op.swap idx vals :: rest)
      = ((vals == valuesAt l idx)
          && checkEvents (replayOp l (Op.swap idx vals)) rest) := rfl

theorem checkEvents_cons_sorted (l : List Int) (idx : List Int) (rest : List Op) :
    checkEvents l (Op.sorted idx :: rest) = checkEvents l rest := rfl

theorem checkEvents_cons_highlight (l : List Int) (idx : List Int) (c : Nat) (rest : List Op) :
    checkEvents l (Op.highlight idx c :: rest) = checkEvents l rest := rfl

theorem checkEvents_cons_init (l a : List Int) (rest : List Op) :
    checkEvents l (Op.init a :: rest) = checkEvents a rest := rfl

theorem checkEvents_append : ∀ (t1 : List Op) (l : List Int) (t2 : List Op),
    checkEvents l (t1 ++ t2)
      = (checkEvents l t1 && checkEvents (replay l t1) t2) := by
  intro t1
  induction t1 with
  | nil => intro l t2; simp [checkEvents, replay]
  | cons op t1 ih =>
    intro l t2
    have h1 : checkEvents l ((op :: t1) ++ t2)
        = (eventValuesOk l op && checkEvents (replayOp l op) (t1 ++ t2)) := rfl
    have h2 : checkEvents l (op :: t1)
        = (eventValuesOk l op && checkEvents (replayOp l op) t1) := rfl
    have h3 : replay l (op :: t1) = replay (replayOp l op) t1 := rfl
    rw [h1, h2, h3, ih (replayOp l op) t2, Bool.and_assoc]

theorem bubbleInner_check : ∀ (n : Nat) (l : List Int) (j : Nat), j + n < l.length →
    checkEvents l (bubbleInner l j n).2 = true := by
  intro n
  induction n with
  | zero => intro l j _; rfl
  | succ n ih =>
    intro l j h
    simp only [bubbleInner]
    split
    · rw [checkEvents_cons_compare, checkEvents_cons_swap,
        replayOp_swap_nat l j (j+1) _ (by omega) (by omega),
        ih (swapAt l j (j+1)) (j+1) (by rw [swapAt_length]; omega)]
      simp [valuesAt]
    · rw [checkEvents_cons_compare, ih l (j+1) (by omega)]
      simp [valuesAt]

theorem bubbleOuter_check : ∀ (f : Nat) (l : List Int) (i : Nat), l.length = i + f →
    checkEvents l (bubbleOuter l i f).2 = true := by
  intro f
  induction f with
  | zero => intro l i _; rfl
  | succ f ih =>
    intro l i h
    simp only [bubbleOuter]
    rw [checkEvents_append, bubbleInner_check _ _ _ (by omega),
      bubbleInner_replay _ _ _ (by omega), checkEvents_cons_sorted,
      ih _ (i+1) (by rw [bubbleInner_fst_length]; omega)]
    rfl

theorem selInner_replay : ∀ (f : Nat) (l : List Int) (m j : Nat),
    replay l (selInner l m j f).2 = l := by
  intro f
  induction f with
  | zero => intro l m j; rfl
  | succ f ih =>
    intro l m j
    simp only [selInner]
    show replay l (Op.compare _ _ :: _) = l
    have h1 : replay l (Op.compare [(m : Int), (j : Int)] [l.getD m 0, l.getD j 0]
        :: (selInner l (if l.getD j 0 < l.getD m 0 then j else m) (j+1) f).2)
        = replay l (selInner l (if l.getD j 0 < l.getD m 0 then j else m) (j+1) f).2 := rfl
    rw [h1]
    split <;> exact ih l _ (j+1)

theorem selInner_check : ∀ (f : Nat) (l : List Int) (m j : Nat),
    checkEvents l (selInner l m j f).2 = true := by
  intro f
  induction f with
  | zero => intro l m j; rfl
  | succ f ih =>
    intro l m j
    simp only [selInner]
    rw [checkEvents_cons_compare]
    have hv : ([l.getD m 0, l.getD j 0] == valuesAt l [(m : Int), (j : Int)]) = true := by
      simp [valuesAt]
    rw [hv]
    split <;> simp [ih l _ (j+1)]

theorem selOuter_check : ∀ (f : Nat) (l : List Int) (i : Nat), i + f + 1 = l.length →
    checkEvents l (selOuter l i f).2 = true := by
  intro f
  induction f with
  | zero => intro l i _; rfl
  | succ f ih =>
    intro l i h
    simp only [selOuter]
    rw [checkEvents_cons_highlight, checkEvents_append, checkEvents_append,
      selInner_check, selInner_replay]
    set m := (selInner l i (i+1) (l.length - (i+1))).1 with hm
    have hmlt : m < l.length :=
      selInner_min_lt (l.length - (i+1)) l i (i+1) (by omega) (by omega)
    by_cases hmi : m ≠ i
    · simp only [if_pos hmi]
      have hone : checkEvents l
          [Op.swap [(i : Int), (m : Int)] [l.getD i 0, l.getD m 0]] = true := by
        rw [checkEvents_cons_swap]
        simp [valuesAt, checkEvents]
      have hrep2 : replay l
          [Op.swap [(i : Int), (m : Int)] [l.getD i 0, l.getD m 0]] = swapAt l i m := by
        have h0 : replay l [Op.swap [(i : Int), (m : Int)] [l.getD i 0, l.getD m 0]]
            = replayOp l (Op.swap [(i : Int), (m : Int)] [l.getD i 0, l.getD m 0]) := rfl
        rw [h0, replayOp_swap_nat l i m _ (by omega) hmlt]
      rw [hone, hrep2, checkEvents_cons_sorted,
        ih (swapAt l i m) (i+1) (by rw [swapAt_length]; omega)]
      rfl
    · simp only [if_neg hmi]
      have hrep : replay l ([] : List Op) = l := rfl
      rw [hrep, checkEvents_cons_sorted, ih l (i+1) (by omega)]
      rfl

/-- Claim C4 (amended).  For every input array, replaying the bubble
and selection generators' traces from `init.array` reproduces every
recorded `values` field of their `compare` and `swap` events; the claim
fails as stated for the insertion generator (see the counterexample),
whose `swap` events record shift values that replay-by-exchange does
not reproduce. -/
theorem claim4_replay_reproduces_values (A : List Int) :
    checkEvents A (generateBubbleSort A) = true ∧
    checkEvents A (generateSelectionSort A) = true := by
  constructor
  · have hg : generateBubbleSort A
        = Op.init A :: ((bubbleOuter A 0 A.length).2 ++ [Op.complete]) := rfl
    rw [hg, checkEvents_cons_init, checkEvents_append,
      bubbleOuter_check A.length A 0 (by omega)]
    rfl
  · have hg : generateSelectionSort A
        = Op.init A :: ((selOuter A 0 (A.length - 1)).2
            ++ [Op.sorted [(A.length : Int) - 1], Op.complete]) := rfl
    rw [hg, checkEvents_cons_init, checkEvents_append]
    cases A with
    | nil => rfl
    | cons a t =>
      rw [selOuter_check ((a :: t).length - 1) (a :: t) 0 (by simp)]
      rw [checkEvents_cons_sorted]
      rfl

/-- Claim C4 counterexample: for input `[3, 2, 1]` the insertion
generator records a `swap` whose values disagree with the replayed
array state at that point of the trace. -/
theorem claim4_counterexample :
    checkEvents [3, 2, 1] (generateInsertionSort [3, 2, 1]) = false := by decide

/-! ## Empty-input traces -/

/-- Claim C7 (amended).  On the empty array the bubble and insertion
generators return the 2-event trace `init([]), complete`, while the
selection generator returns a 3-event trace with a `sorted [-1]` event
between them. -/
theorem claim7_empty_traces :
    generateBubbleSort [] = [Op.init [], Op.complete] ∧
    generateInsertionSort [] = [Op.init [], Op.complete] ∧
    generateSelectionSort [] = [Op.init [], Op.sorted [-1], Op.complete] := by
  refine ⟨rfl, rfl, rfl⟩

/-- Claim C7 counterexample: the selection generator's empty-input
trace has three events, not two. -/
theorem claim7_counterexample :
    generateSelectionSort [] = [Op.init [], Op.sorted [-1], Op.complete] ∧
    (generateSelectionSort ([] : List Int)).length ≠ 2 := by
  refine ⟨rfl, by decide⟩


/-! ## The syntax-tree model

A minimal model of the babel AST shapes that the parser inspects.
`member` covers both computed and dotted member access (the source
never distinguishes them); `assign` is an assignment expression;
`arrayPat` is a destructuring array pattern. -/

/-- Expression nodes. -/
inductive Expr where
  | num (value : Int)
  | ident (nm : String)
  | member (obj : Expr) (prop : Expr)
  | binop (op : String) (left right : Expr)
  | arrayLit (elements : List Expr)
  | arrayPat (elements : List Expr)
  | assign (left right : Expr)
deriving Repr

/-- A variable declarator: an id pattern and an optional initializer. -/
structure Declarator where
  id : Expr
  init : Option Expr
deriving Repr

/-- Statement nodes. -/
inductive Stmt where
  | exprStmt (e : Expr)
  | varDecl (decls : List Declarator)
  | forStmt (finit : Option Stmt) (test : Option Expr) (update : Option Expr) (body : Stmt)
  | ifStmt (test : Expr) (conseq : Stmt) (alt : Option Stmt)
  | block (stmts : List Stmt)
  | funcDecl (nm : String) (body : Stmt)
deriving Repr

/-- A program is its list of top-level statements. -/
abbrev Ast := List Stmt

mutual
/-- All declarator nodes of a statement subtree in document order. -/
def stmtDecls : Stmt → List Declarator
  | .exprStmt _ => []
  | .varDecl ds => ds
  | .forStmt (some s) _ _ b => stmtDecls s ++ stmtDecls b
  | .forStmt none _ _ b => stmtDecls b
  | .ifStmt _ c (some a) => stmtDecls c ++ stmtDecls a
  | .ifStmt _ c none => stmtDecls c
  | .block ss => stmtsDecls ss
  | .funcDecl _ b => stmtDecls b

/-- Declarators of a statement list in document order. -/
def stmtsDecls : List Stmt → List Declarator
  | [] => []
  | s :: rest => stmtDecls s ++ stmtsDecls rest
end

/-- Value of an array-literal element; non-numeric literals default to 0. -/
def elemValue : Expr → Int
  | .num v => v
  | _ => 0

/-- The binding a single declarator qualifies for: its initializer
must be an array literal and its id an identifier. -/
def declBinding (d : Declarator) : Option (String × List Int) :=
  match d.id, d.init with
  | .ident nm, some (.arrayLit es) => some (nm, es.map elemValue)
  | _, _ => none

/-- One step of the declarator scan of findArrayInitialization: any
qualifying declarator overwrites the current binding. -/
def declStep (acc : Option (String × List Int)) (d : Declarator) :
    Option (String × List Int) :=
  (declBinding d).or acc

/-- Model of findArrayInitialization (identical in both variants). -/
def findArrayInitialization (ast : Ast) : Option (String × List Int) :=
  (stmtsDecls ast).foldl declStep none

mutual
/-- For-statement nodes of a subtree in pre-order, skipping function
bodies (the getFunctionParent check in extractForLoops). -/
def topFors : Stmt → List Stmt
  | .forStmt fi t u b => .forStmt fi t u b :: topFors b
  | .ifStmt _ c (some a) => topFors c ++ topFors a
  | .ifStmt _ c none => topFors c
  | .block ss => topForsList ss
  | _ => []

/-- For-statement nodes of a statement list, skipping function bodies. -/
def topForsList : List Stmt → List Stmt
  | [] => []
  | s :: rest => topFors s ++ topForsList rest
end

/-- Model of extractForLoops: all for statements not inside a function,
in pre-order (nested loops are collected as well). -/
def extractForLoops (ast : Ast) : List Stmt := topForsList ast

mutual
/-- For-statement nodes of a subtree in pre-order, function bodies
included (a plain traverse). -/
def forsIn : Stmt → List Stmt
  | .forStmt fi t u b => .forStmt fi t u b :: forsIn b
  | .ifStmt _ c (some a) => forsIn c ++ forsIn a
  | .ifStmt _ c none => forsIn c
  | .block ss => forsInList ss
  | .funcDecl _ b => forsIn b
  | _ => []

/-- For-statement nodes of a statement list, function bodies included. -/
def forsInList : List Stmt → List Stmt
  | [] => []
  | s :: rest => forsIn s ++ forsInList rest
end

/-- For-statement nodes strictly below a node (babel's traverse does
not visit the root it is given). -/
def forsBelow : Stmt → List Stmt
  | .forStmt _ _ _ b => forsIn b
  | .ifStmt _ c (some a) => forsIn c ++ forsIn a
  | .ifStmt _ c none => forsIn c
  | .block ss => forsInList ss
  | .funcDecl _ b => forsIn b
  | _ => []

mutual
/-- All statement nodes of a subtree in pre-order, root included. -/
def stmtNodes : Stmt → List Stmt
  | .exprStmt e => [.exprStmt e]
  | .varDecl ds => [.varDecl ds]
  | .forStmt (some s) t u b => .forStmt (some s) t u b :: (stmtNodes s ++ stmtNodes b)
  | .forStmt none t u b => .forStmt none t u b :: stmtNodes b
  | .ifStmt t c (some a) => .ifStmt t c (some a) :: (stmtNodes c ++ stmtNodes a)
  | .ifStmt t c none => .ifStmt t c none :: stmtNodes c
  | .block ss => .block ss :: stmtNodesList ss
  | .funcDecl nm b => .funcDecl nm b :: stmtNodes b

/-- Statement nodes of a statement list in pre-order. -/
def stmtNodesList : List Stmt → List Stmt
  | [] => []
  | s :: rest => stmtNodes s ++ stmtNodesList rest
end

/-- Statement nodes strictly below a node. -/
def nodesBelow : Stmt → List Stmt
  | .forStmt (some s) _ _ b => stmtNodes s ++ stmtNodes b
  | .forStmt none _ _ b => stmtNodes b
  | .ifStmt _ c (some a) => stmtNodes c ++ stmtNodes a
  | .ifStmt _ c none => stmtNodes c
  | .block ss => stmtNodesList ss
  | .funcDecl _ b => stmtNodes b
  | _ => []

/-! ## Pattern classifiers -/

/-- Model of isSwapOperation: an expression statement assigning an
array literal to an array pattern; neither the element count, the
array name nor the right-hand side contents are checked here. -/
def isSwapOperation : Stmt → Bool
  | .exprStmt (.assign (.arrayPat _) (.arrayLit _)) => true
  | _ => false

/-- Model of getIndexFromArrayAccess: a numeric-literal property gives
its value; anything else (identifier or missing property) gives none. -/
def getIndexFromArrayAccess : Expr → Option Int
  | .member _ (.num v) => some v
  | _ => none

/-- Model of getSwapIndices: both sides must have exactly two elements
and both indices are read from the left pattern only; the right-hand
side elements are never inspected. -/
def getSwapIndices : Stmt → Option (Int × Int)
  | .exprStmt (.assign (.arrayPat [e1, e2]) (.arrayLit [_, _])) =>
    match getIndexFromArrayAccess e1, getIndexFromArrayAccess e2 with
    | some i1, some i2 => some (i1, i2)
    | _, _ => none
  | _ => none

/-- Start bound of a loop from its init declaration (numeric literal,
default 0). -/
def loopInitValue : Option Stmt → Int
  | some (.varDecl (d :: _)) =>
    match d.init with
    | some (.num v) => v
    | _ => 0
  | _ => 0

/-- Loop variable name.  The default applies only when there is no
declaration to read; a pattern id yields no name (JS undefined). -/
def loopVar (dflt : String) : Option Stmt → Option String
  | some (.varDecl (d :: _)) =>
    match d.id with
    | .ident nm => some nm
    | _ => none
  | _ => some dflt

/-- Model of expressionContainsVariable: recurses only into binary
expressions; an absent variable name never matches. -/
def containsVar (v : Option String) : Expr → Bool
  | .ident nm => some nm == v
  | .binop _ l r => containsVar v l || containsVar v r
  | _ => false

/-- End bound of executeSingleLoop from the loop test: a numeric right
operand is taken literally, a member expression means the array length,
a binary expression means length - 1, anything else leaves the default
length. -/
def singleEnd (len : Nat) : Option Expr → Int
  | some (.binop _ _ (.num v)) => v
  | some (.binop _ _ (.member _ _)) => (len : Int)
  | some (.binop _ _ (.binop _ _ _)) => (len : Int) - 1
  | _ => (len : Int)

/-- End bound of the outer loop of executeNestedLoops (a numeric right
operand is ignored here, unlike the single-loop case). -/
def nestedEnd (len : Nat) : Option Expr → Int
  | some (.binop _ _ (.member _ _)) => (len : Int)
  | some (.binop _ _ (.binop _ _ _)) => (len : Int) - 1
  | _ => (len : Int)

/-- Whether the inner loop's test right operand is a binary expression
textually containing the outer loop variable. -/
def innerUsesOuter (outerVar : Option String) : Option Expr → Bool
  | some (.binop _ _ (.binop op l r)) => containsVar outerVar (.binop op l r)
  | _ => false

/-- State of the swap scan over the inner loop body. -/
structure SwapScan where
  hasSwap : Bool
  alwaysSwap : Bool
  swapCond : Option Expr
deriving Repr

/-- One traversal step of the swap scan: an if statement captures its
test (last one wins) and searches its consequent subtree for a swap; an
expression statement that is a swap while none was seen yet makes the
swap unconditional. -/
def scanStep (st : SwapScan) : Stmt → SwapScan
  | .ifStmt t c _ =>
    { st with
      swapCond := some t
      hasSwap := st.hasSwap || (nodesBelow c).any isSwapOperation }
  | .exprStmt e =>
    if !st.hasSwap && isSwapOperation (.exprStmt e) then
      { st with hasSwap := true, alwaysSwap := true }
    else st
  | _ => st

/-- Scan the inner loop body for a guarded or unconditional swap,
mirroring the two-visitor traverse of executeNestedLoops. -/
def scanSwap (body : Stmt) : SwapScan :=
  (nodesBelow body).foldl scanStep { hasSwap := false, alwaysSwap := false, swapCond := none }

/-- shouldSwap: unconditional, or decided by the captured relational
operator applied to the current adjacent shadow values. -/
def shouldSwapB (cond : Option Expr) (alw : Bool) (a b : Int) : Bool :=
  if alw then true
  else
    match cond with
    | some (.binop op _ _) =>
      if op = ">" then decide (b < a)
      else if op = "<" then decide (a < b)
      else if op = ">=" then decide (b ≤ a)
      else if op = "<=" then decide (a ≤ b)
      else false
    | _ => false

/-! ## The execute-based pipeline (part_001) -/

/-- Inner loop of the nested-loop execution: `n` iterations with JS
counter `j`, comparing positions (j, j+1) of the shadow array and
swapping according to the captured condition. -/
def nestedInner (cond : Option Expr) (alw : Bool) (l : List Int) (j : Int) :
    Nat → List Int × List Op
  | 0 => (l, [])
  | n+1 =>
    let a := getI l j
    let b := getI l (j+1)
    let cmp := Op.compare [j, j+1] [a, b]
    if shouldSwapB cond alw a b then
      let rest := nestedInner cond alw (swapI l j (j+1)) (j+1) n
      (rest.1, cmp :: Op.swap [j, j+1] [a, b] :: rest.2)
    else
      let rest := nestedInner cond alw l (j+1) n
      (rest.1, cmp :: rest.2)

/-- Outer loop of the nested-loop execution: the inner bound is the
heuristic length - i - 1 (outer-dependent) or length - 1; a sorted
marker is pushed when the bound is outer-dependent and swapping is
conditional. -/
def nestedOuter (cond : Option Expr) (alw usesOuter : Bool) (innerStart : Int)
    (l : List Int) (i : Int) : Nat → List Int × List Op
  | 0 => (l, [])
  | f+1 =>
    let len : Int := (l.length : Int)
    let innerEnd : Int := if usesOuter then len - i - 1 else len - 1
    let r := nestedInner cond alw l innerStart (innerEnd - innerStart).toNat
    let srt : List Op := if usesOuter && !alw then [Op.sorted [len - i - 1]] else []
    let rest := nestedOuter cond alw usesOuter innerStart r.1 (i+1) f
    (rest.1, r.2 ++ (srt ++ rest.2))

/-- Model of executeLoopBody: only direct children of a block body are
scanned for swap statements; each recognized swap is replayed. -/
def execLoopBody (l : List Int) (body : Stmt) : List Int × List Op :=
  match body with
  | .block ss =>
    ss.foldl (fun acc s =>
      if isSwapOperation s then
        match getSwapIndices s with
        | some (i1, i2) =>
          (swapI acc.1 i1 i2,
            acc.2 ++ [Op.swap [i1, i2] [getI acc.1 i1, getI acc.1 i2]])
        | none => acc
      else acc) (l, [])
  | _ => (l, [])

/-- Iterate executeLoopBody once per loop index. -/
def iterLoopBody (body : Stmt) (l : List Int) : Nat → List Int × List Op
  | 0 => (l, [])
  | n+1 =>
    let r := execLoopBody l body
    let rest := iterLoopBody body r.1 n
    (rest.1, r.2 ++ rest.2)

/-- Model of executeSingleLoop. -/
def execSingleLoop (l : List Int) (loop : Stmt) : List Int × List Op :=
  match loop with
  | .forStmt fi t _ b =>
    let start := loopInitValue fi
    let stop := singleEnd l.length t
    iterLoopBody b l (stop - start).toNat
  | _ => (l, [])

/-- Model of executeNestedLoops: the first loop is the outer one; the
first for statement found in its body is the inner one; falls back to
the single-loop path when no inner loop exists. -/
def execNestedLoops (l : List Int) (outer : Stmt) : List Int × List Op :=
  match outer with
  | .forStmt fi t u b =>
    match (forsBelow b).head? with
    | none => execSingleLoop l (.forStmt fi t u b)
    | some (.forStmt ifi _ _ ib) =>
      let outerVar := loopVar "i" fi
      let outerStart := loopInitValue fi
      let outerEnd := nestedEnd l.length t
      let innerStart := loopInitValue ifi
      let usesOuter := innerUsesOuter outerVar
        (match (forsBelow b).head? with
         | some (.forStmt _ it _ _) => it
         | _ => none)
      let scan := scanSwap ib
      nestedOuter scan.swapCond scan.alwaysSwap usesOuter innerStart l outerStart
        (outerEnd - outerStart).toNat
    | some _ => (l, [])
  | _ => (l, [])

/-- Model of extractDirectSwaps: every swap-shaped expression
statement anywhere in the tree, in document order, is replayed against
the shadow array. -/
def extractDirectSwaps (l : List Int) (ast : Ast) : List Int × List Op :=
  (stmtNodesList ast).foldl (fun acc s =>
    if isSwapOperation s then
      match getSwapIndices s with
      | some (i1, i2) =>
        (swapI acc.1 i1 i2,
          acc.2 ++ [Op.swap [i1, i2] [getI acc.1 i1, getI acc.1 i2]])
      | none => acc
    else acc) (l, [])

/-- Model of executeCode (part_001): dispatch on the number of
top-level loops, then push the complete marker. -/
def execCode (l : List Int) (ast : Ast) : List Int × List Op :=
  let loops := extractForLoops ast
  let r :=
    match loops with
    | [] => extractDirectSwaps l ast
    | [single] => execSingleLoop l single
    | outer :: _ :: _ => execNestedLoops l outer
  (r.1, r.2 ++ [Op.complete])

/-- Model of parse (part_001): array discovery, the init event, then
the executed operations; fails exactly when discovery yields nothing
or an empty array. -/
def parseP1 (ast : Ast) : Option (List Op) :=
  match findArrayInitialization ast with
  | none => none
  | some (_, vals) =>
    if vals.length = 0 then none
    else some (Op.init vals :: (execCode vals ast).2)



/-! ## The visitor-based pipeline (part_000) -/

/-- Model of isArrayAccess (part_000): member access whose object is
the discovered array identifier. -/
def isArrayAccess (nm : String) : Expr → Bool
  | .member (.ident onm) _ => onm == nm
  | _ => false

/-- Model of isArrayComparison (part_000). -/
def isArrayComparison (nm : String) : Expr → Bool
  | .binop op l r =>
    (op == ">" || op == "<" || op == ">=" || op == "<=" ||
      op == "==" || op == "===" || op == "!=" || op == "!==") &&
    (isArrayAccess nm l || isArrayAccess nm r)
  | _ => false

/-- Model of getComparisonIndices (part_000): a literal index is taken
as is; an identifier index resolves to the placeholder 0 on the left
and 1 on the right; anything else contributes nothing. -/
def getComparisonIndices (nm : String) : Expr → List Int
  | .binop _ l r =>
    (match l with
     | .member (.ident onm) (.num v) => if onm == nm then [v] else []
     | .member (.ident onm) (.ident _) => if onm == nm then [0] else []
     | _ => []) ++
    (match r with
     | .member (.ident onm) (.num v) => if onm == nm then [v] else []
     | .member (.ident onm) (.ident _) => if onm == nm then [1] else []
     | _ => [])
  | _ => []

/-- Model of isArrayAssignment (part_000): a plain assignment whose
left side is a member access on the discovered array identifier. -/
def isArrayAssignment (nm : String) : Expr → Bool
  | .assign (.member (.ident onm) _) _ => onm == nm
  | _ => false

/-- Model of getAssignmentDetails (part_000): literal left index and
literal right value. -/
def getAssignmentDetails : Expr → Option Int × Option Int
  | .assign lhs rhs =>
    (getIndexFromArrayAccess lhs,
      match rhs with
      | .num v => some v
      | _ => none)
  | _ => (none, none)

mutual
/-- Pre-order walk of part_000's extractOperations over a statement,
threading the shadow array and the emitted events. -/
def walkStmt (nm : String) (st : List Int × List Op) : Stmt → List Int × List Op
  | .exprStmt e =>
    let st1 :=
      if isSwapOperation (.exprStmt e) then
        match getSwapIndices (.exprStmt e) with
        | some (i1, i2) =>
          (swapI st.1 i1 i2,
            st.2 ++ [Op.swap [i1, i2] [getI st.1 i1, getI st.1 i2]])
        | none => st
      else st
    walkExpr nm st1 e
  | .varDecl ds => walkDecls nm st ds
  | .forStmt fi t u b =>
    let st1 := (st.1, st.2 ++ [Op.comment "Entering loop"])
    let st2 := walkOptStmt nm st1 fi
    let st3 := walkOptExpr nm st2 t
    let st4 := walkOptExpr nm st3 u
    walkStmt nm st4 b
  | .ifStmt t c a =>
    let st1 := walkExpr nm st t
    let st2 := walkStmt nm st1 c
    walkOptStmt nm st2 a
  | .block ss => walkStmts nm st ss
  | .funcDecl _ b => walkStmt nm st b

/-- Walk of an optional statement. -/
def walkOptStmt (nm : String) (st : List Int × List Op) : Option Stmt → List Int × List Op
  | some s => walkStmt nm st s
  | none => st

/-- Walk of a statement list in order. -/
def walkStmts (nm : String) (st : List Int × List Op) : List Stmt → List Int × List Op
  | [] => st
  | s :: rest => walkStmts nm (walkStmt nm st s) rest

/-- Walk of a declarator list in order (id before initializer). -/
def walkDecls (nm : String) (st : List Int × List Op) : List Declarator → List Int × List Op
  | [] => st
  | ⟨did, dinit⟩ :: rest =>
    walkDecls nm (walkOptExpr nm (walkExpr nm st did) dinit) rest

/-- Pre-order walk of part_000's extractOperations over an expression:
the binary-comparison and array-assignment visitors fire on the node,
then the walk descends into its children. -/
def walkExpr (nm : String) (st : List Int × List Op) : Expr → List Int × List Op
  | .binop op l r =>
    let st1 :=
      if isArrayComparison nm (.binop op l r) then
        let idx := getComparisonIndices nm (.binop op l r)
        if idx.length = 2 then
          (st.1, st.2 ++ [Op.compare idx (idx.map (getI st.1))])
        else st
      else st
    walkExpr nm (walkExpr nm st1 l) r
  | .assign l r =>
    let st1 :=
      if isArrayAssignment nm (.assign l r) then
        match getAssignmentDetails (.assign l r) with
        | (some i, some v) => (setI st.1 i v, st.2 ++ [Op.set [i] v])
        | _ => st
      else st
    walkExpr nm (walkExpr nm st1 l) r
  | .member o p => walkExpr nm (walkExpr nm st o) p
  | .arrayLit es => walkExprs nm st es
  | .arrayPat es => walkExprs nm st es
  | .num _ => st
  | .ident _ => st

/-- Walk of an optional expression. -/
def walkOptExpr (nm : String) (st : List Int × List Op) : Option Expr → List Int × List Op
  | some e => walkExpr nm st e
  | none => st

/-- Walk of an expression list in order. -/
def walkExprs (nm : String) (st : List Int × List Op) : List Expr → List Int × List Op
  | [] => st
  | e :: rest => walkExprs nm (walkExpr nm st e) rest
end

/-- Model of extractOperations (part_000): one pre-order pass with the
four visitors, then the complete marker. -/
def extractOperations (nm : String) (l : List Int) (ast : Ast) : List Int × List Op :=
  let r := walkStmts nm (l, []) ast
  (r.1, r.2 ++ [Op.complete])

/-- Model of parse (part_000). -/
def parseP0 (ast : Ast) : Option (List Op) :=
  match findArrayInitialization ast with
  | none => none
  | some (nm, vals) =>
    if vals.length = 0 then none
    else some (Op.init vals :: (extractOperations nm vals ast).2)



/-! ## Concrete source programs used by the claims -/

/-- The identifier `arr`. -/
def arrIdent : Expr := .ident "arr"

/-- The expression `arr.length`. -/
def arrLen : Expr := .member arrIdent (.ident "length")

/-- The expression `arr[e]`. -/
def arrAt (e : Expr) : Expr := .member arrIdent e

/-- The loop variable `j`. -/
def jVar : Expr := .ident "j"

/-- The expression `j + 1`. -/
def jPlus1 : Expr := .binop "+" jVar (.num 1)

/-- The classic bubble-sort source over `[5, 3, 8, 1]`: outer loop
bounded by `arr.length`, inner loop bounded by `arr.length - i - 1`,
swap guarded by `>` on adjacent elements. -/
def bubbleSortSource : Ast :=
  [ .varDecl [⟨.ident "arr", some (.arrayLit [.num 5, .num 3, .num 8, .num 1])⟩],
    .forStmt
      (some (.varDecl [⟨.ident "i", some (.num 0)⟩]))
      (some (.binop "<" (.ident "i") arrLen))
      (some (.ident "i"))
      (.block [
        .forStmt
          (some (.varDecl [⟨.ident "j", some (.num 0)⟩]))
          (some (.binop "<" jVar (.binop "-" (.binop "-" arrLen (.ident "i")) (.num 1))))
          (some jVar)
          (.block [
            .ifStmt (.binop ">" (arrAt jVar) (arrAt jPlus1))
              (.block [
                .exprStmt (.assign
                  (.arrayPat [arrAt jVar, arrAt jPlus1])
                  (.arrayLit [arrAt jPlus1, arrAt jVar])) ])
              none ]) ]) ]

/-- Source declaring an array followed by a bare comparison with no
swap: `let arr = [5,3,8,1]; if (arr[0] > arr[1]) \x7b\x7d`. -/
def compareOnlySource : Ast :=
  [ .varDecl [⟨.ident "arr", some (.arrayLit [.num 5, .num 3, .num 8, .num 1])⟩],
    .ifStmt (.binop ">" (.member arrIdent (.num 0)) (.member arrIdent (.num 1)))
      (.block []) none ]

/-- Source with two array declarations where only the first is
referenced later: `let a = [1,2]; let b = [3,4,5]; [a[0],a[1]] = [a[1],a[0]];`. -/
def twoArraySource : Ast :=
  [ .varDecl [⟨.ident "a", some (.arrayLit [.num 1, .num 2])⟩],
    .varDecl [⟨.ident "b", some (.arrayLit [.num 3, .num 4, .num 5])⟩],
    .exprStmt (.assign
      (.arrayPat [.member (.ident "a") (.num 0), .member (.ident "a") (.num 1)])
      (.arrayLit [.member (.ident "a") (.num 1), .member (.ident "a") (.num 0)])) ]

/-- A destructuring statement on an array named `other` whose right
side is not the reversed tuple: `[other[1], other[0]] = [5, 6];`. -/
def foreignSwapStmt : Stmt :=
  .exprStmt (.assign
    (.arrayPat [.member (.ident "other") (.num 1), .member (.ident "other") (.num 0)])
    (.arrayLit [.num 5, .num 6]))

/-! ## Claim C2: the synthesized bubble trace matches the generator -/

/-- Claim C2.  On the classic bubble-sort source over `[5, 3, 8, 1]`,
the execute-based parse produces a trace with the same number of
compare events, the same number of swap events and the same replayed
final array as the canonical bubble generator (in fact the identical
trace). -/
theorem claim2_parse_matches_generator :
    parseP1 bubbleSortSource = some (generateBubbleSort [5, 3, 8, 1]) ∧
    (parseP1 bubbleSortSource).map (fun t =>
        (countOps isCompareOp t, countOps isSwapOp t, replay [5, 3, 8, 1] t))
      = some (countOps isCompareOp (generateBubbleSort [5, 3, 8, 1]),
          countOps isSwapOp (generateBubbleSort [5, 3, 8, 1]),
          replay [5, 3, 8, 1] (generateBubbleSort [5, 3, 8, 1])) := by
  constructor
  · rfl
  · rfl

/-! ## Claim C5: which array declaration wins discovery -/

/-- All qualifying array bindings of a program, in document order. -/
def arrayBindings (ast : Ast) : List (String × List Int) :=
  (stmtsDecls ast).filterMap declBinding

/-- The first qualifying binding, following the claim's words. -/
def firstArrayBinding (ast : Ast) : Option (String × List Int) :=
  (arrayBindings ast).head?

theorem foldl_declStep_eq (ds : List Declarator) :
    ∀ acc, ds.foldl declStep acc = ((ds.filterMap declBinding).getLast?).or acc := by
  induction ds using List.reverseRecOn with
  | nil => intro acc; rfl
  | append_singleton ds d ih =>
    intro acc
    rw [List.foldl_append, List.foldl_cons, List.foldl_nil, List.filterMap_append]
    have hstep : declStep (ds.foldl declStep acc) d
        = (declBinding d).or (ds.foldl declStep acc) := rfl
    match hd : declBinding d with
    | some b =>
      rw [hstep, hd, List.filterMap_cons, hd]
      simp
    | none =>
      rw [hstep, hd, List.filterMap_cons, hd]
      simp [ih]

/-- Claim C5 (amended).  Array discovery binds the name and values of
the LAST qualifying declaration in document order, not the first: each
match overwrites the previous binding, so every earlier array
declaration is the one ignored. -/
theorem claim5_last_declaration_wins (ast : Ast) :
    findArrayInitialization ast = (arrayBindings ast).getLast? := by
  unfold findArrayInitialization arrayBindings
  rw [foldl_declStep_eq]
  exact Option.or_none

/-- Claim C5 counterexample: with `let a = [1,2]; let b = [3,4,5];`
and `a` referenced afterwards, discovery binds `b`, not the first
declaration `a`. -/
theorem claim5_counterexample :
    findArrayInitialization twoArraySource = some ("b", [3, 4, 5]) ∧
    firstArrayBinding twoArraySource = some ("a", [1, 2]) ∧
    findArrayInitialization twoArraySource ≠ firstArrayBinding twoArraySource := by
  refine ⟨rfl, rfl, by decide⟩


/-! ## Claim C6: the parse failure condition -/

/-- Claim C6.  The execute-based parse returns a trace exactly when
array discovery finds a binding with a non-empty value list; otherwise
it returns nothing at all, never a partial trace.  Every other node
shape is handled by total classifier functions (unrecognized nodes are
skipped), so nothing else can abort synthesis. -/
theorem claim6_parse_failure_condition (ast : Ast) :
    (∃ t, parseP1 ast = some t) ↔
      (∃ nm vals, findArrayInitialization ast = some (nm, vals) ∧ vals ≠ []) := by
  constructor
  · intro ⟨t, ht⟩
    unfold parseP1 at ht
    split at ht
    · exact absurd ht (by simp)
    · rename_i nm vals heq
      by_cases hv : vals.length = 0
      · rw [if_pos hv] at ht
        exact absurd ht (by simp)
      · refine ⟨nm, vals, heq, ?_⟩
        intro he
        exact hv (by rw [he]; rfl)
  · rintro ⟨nm, vals, h, hne⟩
    have hv : ¬ vals.length = 0 := by
      intro h0
      exact hne (List.length_eq_zero.mp h0)
    refine ⟨Op.init vals :: (execCode vals ast).2, ?_⟩
    unfold parseP1
    rw [h]
    simp [hv]

/-! ## Claim C8: comparison-only source -/

/-- Claim C8 (amended).  On source declaring an array and containing
only a bare element comparison and no swap, the visitor-based parse
variant (part_000) returns `init`, exactly one `compare`, `complete`;
the execute-based variant (part_001) finds no loops and no direct
swaps and returns just `init` then `complete`, with no compare event. -/
theorem claim8_variant_behavior :
    parseP0 compareOnlySource
      = some [Op.init [5, 3, 8, 1], Op.compare [0, 1] [5, 3], Op.complete] ∧
    parseP1 compareOnlySource = some [Op.init [5, 3, 8, 1], Op.complete] := by
  refine ⟨rfl, rfl⟩

/-- Claim C8 counterexample: the execute-based parse variant emits no
compare event at all on the comparison-only source, refuting the
claimed `init`, one `compare`, `complete` shape for it. -/
theorem claim8_counterexample :
    parseP1 compareOnlySource = some [Op.init [5, 3, 8, 1], Op.complete] ∧
    (parseP1 compareOnlySource).map (countOps isCompareOp) = some 0 := by
  refine ⟨rfl, rfl⟩

/-! ## Claim C9: swap recognition -/

/-- The guarded swap recognition used at every pipeline call site:
isSwapOperation, then getSwapIndices. -/
def swapRecognized (s : Stmt) : Option (Int × Int) :=
  if isSwapOperation s then getSwapIndices s else none

/-- The claim's characterization of a swap, following the spec's
words: both sides are two-element lists of accesses on the discovered
array with literal numeric indices, and the right side is the reversed
tuple of the same two accesses. -/
def specIsSwap (nm : String) (s : Stmt) : Bool :=
  match s with
  | .exprStmt (.assign
      (.arrayPat [.member (.ident o1) (.num a), .member (.ident o2) (.num b)])
      (.arrayLit [.member (.ident o3) (.num c), .member (.ident o4) (.num d)])) =>
    o1 == nm && o2 == nm && o3 == nm && o4 == nm && c == b && d == a
  | _ => false

theorem getIndexFromArrayAccess_eq_some {e : Expr} {v : Int}
    (h : getIndexFromArrayAccess e = some v) :
    ∃ o, e = Expr.member o (Expr.num v) := by
  match e with
  | .member o p =>
    match p with
    | .num w =>
      have hw : w = v := by simpa [getIndexFromArrayAccess] using h
      exact ⟨o, by rw [hw]⟩
    | .ident _ => simp [getIndexFromArrayAccess] at h
    | .member _ _ => simp [getIndexFromArrayAccess] at h
    | .binop _ _ _ => simp [getIndexFromArrayAccess] at h
    | .arrayLit _ => simp [getIndexFromArrayAccess] at h
    | .arrayPat _ => simp [getIndexFromArrayAccess] at h
    | .assign _ _ => simp [getIndexFromArrayAccess] at h
  | .num _ => simp [getIndexFromArrayAccess] at h
  | .ident _ => simp [getIndexFromArrayAccess] at h
  | .binop _ _ _ => simp [getIndexFromArrayAccess] at h
  | .arrayLit _ => simp [getIndexFromArrayAccess] at h
  | .arrayPat _ => simp [getIndexFromArrayAccess] at h
  | .assign _ _ => simp [getIndexFromArrayAccess] at h

/-- Claim C9 (amended).  A statement is recognized as a swap, and
produces a swap event, exactly when it is an assignment statement
whose left side is a two-element array pattern whose elements are
member accesses with numeric-literal properties and whose right side
is any two-element array literal: the accessed array's identity and
the right side's contents are never inspected, and a non-literal index
on the left makes the statement unrecognized. -/
theorem claim9_swap_recognition (s : Stmt) :
    (swapRecognized s).isSome = true ↔
      ∃ o1 n1 o2 n2 r1 r2, s = Stmt.exprStmt (Expr.assign
        (Expr.arrayPat [Expr.member o1 (Expr.num n1), Expr.member o2 (Expr.num n2)])
        (Expr.arrayLit [r1, r2])) := by
  constructor
  · intro h
    unfold swapRecognized at h
    by_cases hs : isSwapOperation s
    case neg => rw [if_neg hs] at h; simp at h
    rw [if_pos hs] at h
    unfold getSwapIndices at h
    split at h
    case _ e1 e2 r1 r2 =>
      cases h1 : getIndexFromArrayAccess e1 with
      | none => rw [h1] at h; simp at h
      | some i1 =>
        cases h2 : getIndexFromArrayAccess e2 with
        | none => rw [h1, h2] at h; simp at h
        | some i2 =>
          obtain ⟨o1, he1⟩ := getIndexFromArrayAccess_eq_some h1
          obtain ⟨o2, he2⟩ := getIndexFromArrayAccess_eq_some h2
          subst he1
          subst he2
          exact ⟨o1, i1, o2, i2, r1, r2, rfl⟩
    case _ => simp at h
  · rintro ⟨o1, n1, o2, n2, r1, r2, rfl⟩
    rfl

/-- Claim C9 counterexample: `[other[1], other[0]] = [5, 6];` is
recognized and yields swap indices (1, 0) although its left side does
not access the discovered array `arr` and its right side is not the
reversed tuple of the same accesses; it does not even match the
claim's shape for its own array name. -/
theorem claim9_counterexample :
    swapRecognized foreignSwapStmt = some (1, 0) ∧
    specIsSwap "arr" foreignSwapStmt = false ∧
    specIsSwap "other" foreignSwapStmt = false := by
  refine ⟨rfl, rfl, rfl⟩

/-! ## Claim C10: per-call state reset -/

/-- The mutable fields of a CodeParser instance. -/
structure ParserState where
  operations : List Op
  currentArray : List Int
  arrayName : Option String
deriving Repr

/-- Model of parse as an instance method.  The method's first three
statements overwrite all three fields, so the incoming state `_s` is
never read; discovery and execution then proceed as in parseP1, and
the final state carries the produced trace and mutated shadow array. -/
def parseM (_s : ParserState) (ast : Ast) : Option (List Op) × ParserState :=
  let s1 : ParserState :=
    match findArrayInitialization ast with
    | none => { operations := [], currentArray := [], arrayName := none }
    | some (nm, vals) => { operations := [], currentArray := vals, arrayName := some nm }
  if s1.arrayName = none ∨ s1.currentArray.length = 0 then (none, s1)
  else
    let r := execCode s1.currentArray ast
    let ops := Op.init s1.currentArray :: r.2
    (some ops, { operations := ops, currentArray := r.1, arrayName := s1.arrayName })

/-- Model of generateBubbleSort as an instance method: it overwrites
the operations and shadow-array fields and leaves the array name. -/
def generateBubbleSortM (s : ParserState) (array : List Int) : List Op × ParserState :=
  (generateBubbleSort array,
    { s with operations := generateBubbleSort array, currentArray := array })

/-- Model of generateSelectionSort as an instance method. -/
def generateSelectionSortM (s : ParserState) (array : List Int) : List Op × ParserState :=
  (generateSelectionSort array,
    { s with operations := generateSelectionSort array, currentArray := array })

/-- Model of generateInsertionSort as an instance method. -/
def generateInsertionSortM (s : ParserState) (array : List Int) : List Op × ParserState :=
  (generateInsertionSort array,
    { s with operations := generateInsertionSort array, currentArray := array })

/-- The stateful parse returns the same trace as the pure pipeline. -/
theorem parseM_fst (s : ParserState) (ast : Ast) : (parseM s ast).1 = parseP1 ast := by
  unfold parseM parseP1
  cases h : findArrayInitialization ast with
  | none => rfl
  | some p =>
    obtain ⟨nm, vals⟩ := p
    by_cases hv : vals.length = 0
    · simp [hv]
    · simp [hv]

/-- Claim C10.  parse resets all per-instance state on entry, so both
its returned trace and its final state are independent of the incoming
state, and each generator's returned trace depends only on its
argument; in this per-call-state model a later call therefore cannot
affect the value returned by an earlier one. -/
theorem claim10_state_independence (s1 s2 : ParserState) (ast : Ast) (A : List Int) :
    parseM s1 ast = parseM s2 ast ∧
    (parseM s1 ast).1 = parseP1 ast ∧
    (generateBubbleSortM s1 A).1 = (generateBubbleSortM s2 A).1 ∧
    (generateSelectionSortM s1 A).1 = (generateSelectionSortM s2 A).1 ∧
    (generateInsertionSortM s1 A).1 = (generateInsertionSortM s2 A).1 :=
  ⟨rfl, parseM_fst s1 ast, rfl, rfl, rfl⟩


end VisualDebug
